import Mathlib

/-!
Verification development for the `books` collection query script
(`src/queries.js`).  The script is a sequence of document-database
commands (inserts, finds, updates, deletes, aggregation pipelines and
index commands) against a single collection of Book documents.  The
script itself contains no algorithmic code: the operations it invokes
are the contract of the external document-store engine, which the
specification (§3, §6) describes.  We therefore embed that contract:
the data model of §3 and the operation table of §6, and prove the
testable properties of §8 against it.
-/

namespace BookQueries

/-- Modelled from the spec: a Review sub-document, embedded in its Book
(`user`, `rating`, `comment`). -/
structure Review where
  user : String
  rating : Int
  comment : String
deriving DecidableEq

/-- Modelled from the spec: a Book document (`title`, `author`, `genre`,
`publicationYear`, `price`, `reviews`).  Prices are decimal currency
amounts, embedded as rationals. -/
structure Book where
  title : String
  author : String
  genre : String
  publicationYear : Int
  price : ℚ
  reviews : List Review
deriving DecidableEq

/-- Modelled from the spec: a stored document is a Book together with the
implicit unique identifier assigned by the storage layer on creation. -/
structure Doc where
  id : Nat
  book : Book
deriving DecidableEq

/-- Modelled from the spec: the state of the `books` collection — the
ordered sequence of stored documents, plus the next identifier the
storage layer will assign. -/
structure Coll where
  docs : List Doc
  nextId : Nat
deriving DecidableEq

/-- The empty collection. -/
def emptyColl : Coll := { docs := [], nextId := 0 }

/-! ### Filter predicates appearing in the script -/

/-- Filter `{ "title": t }` (equality on title). -/
def byTitle (t : String) (d : Doc) : Bool := d.book.title == t

/-- Filter `{ "author": a }` (equality on author). -/
def byAuthor (a : String) (d : Doc) : Bool := d.book.author == a

/-- Filter `{ "genre": g }` (equality on genre). -/
def byGenre (g : String) (d : Doc) : Bool := d.book.genre == g

/-- Filter `{ "publicationYear": { $lt: y } }`. -/
def byYearLt (y : Int) (d : Doc) : Bool := d.book.publicationYear < y

/-- Filter `{ "publicationYear": { $gt: y }, "price": { $lt: p } }`
(conjunction of the two field conditions). -/
def byYearGtPriceLt (y : Int) (p : ℚ) (d : Doc) : Bool :=
  decide (y < d.book.publicationYear) && decide (d.book.price < p)

/-- Filter `{ $or: [ { "author": a1 }, { "author": a2 } ] }`. -/
def byAuthorOr (a1 a2 : String) (d : Doc) : Bool :=
  byAuthor a1 d || byAuthor a2 d

/-- Filter `{ "genre": g, "reviews.rating": r }` (genre equality, and some
embedded review has the given rating). -/
def byGenreAndRating (g : String) (r : Int) (d : Doc) : Bool :=
  byGenre g d && d.book.reviews.any (fun rv => rv.rating == r)

/-- Filter `{ "reviews": { $elemMatch: { "user": u } } }`. -/
def byReviewUser (u : String) (d : Doc) : Bool :=
  d.book.reviews.any (fun rv => rv.user == u)

/-- The trivial filter `{}` matching every document. -/
def allDocs (_ : Doc) : Bool := true

/-! ### Update operators appearing in the script -/

/-- Update operator `{ $set: { "price": p } }`. -/
def setPrice (p : ℚ) (b : Book) : Book := { b with price := p }

/-- Update operator `{ $inc: { "price": δ } }`. -/
def incPrice (δ : ℚ) (b : Book) : Book := { b with price := b.price + δ }

/-- Update operator `{ $push: { "reviews": r } }` (array append). -/
def pushReview (r : Review) (b : Book) : Book :=
  { b with reviews := b.reviews ++ [r] }

/-! ### Operations of the engine contract (§6 of the spec) -/

/-- Modelled from the spec: insert-one appends one document, assigns the
next identifier and returns it. -/
def insertOne (b : Book) (c : Coll) : Coll × Nat :=
  ({ docs := c.docs ++ [{ id := c.nextId, book := b }], nextId := c.nextId + 1 },
   c.nextId)

/-- Modelled from the spec: insert-many appends all documents of the batch
in order, assigning identifiers, and returns the identifier sequence. -/
def insertMany (bs : List Book) (c : Coll) : Coll × List Nat :=
  match bs with
  | [] => (c, [])
  | b :: rest =>
    let s1 := insertOne b c
    let s2 := insertMany rest s1.1
    (s2.1, s1.2 :: s2.2)

/-- Modelled from the spec: `find` with a filter predicate is read-only and
returns the sequence of matching documents. -/
def find (p : Doc → Bool) (c : Coll) : Coll × List Doc :=
  (c, c.docs.filter p)

/-- Engine scan for update-one: update the first matching document with the
update operator, counting the matched documents (0 or 1). -/
def updateFirst (p : Doc → Bool) (u : Book → Book) : List Doc → List Doc × Nat
  | [] => ([], 0)
  | d :: ds =>
    if p d then ({ d with book := u d.book } :: ds, 1)
    else (d :: (updateFirst p u ds).1, (updateFirst p u ds).2)

/-- Modelled from the spec: update-one mutates the first matching document
with the update operators and returns the matched count. -/
def updateOne (p : Doc → Bool) (u : Book → Book) (c : Coll) : Coll × Nat :=
  let s := updateFirst p u c.docs
  ({ c with docs := s.1 }, s.2)

/-- Engine scan for update-many: update every matching document, counting
the matches. -/
def scanUpdate (p : Doc → Bool) (u : Book → Book) : List Doc → List Doc × Nat
  | [] => ([], 0)
  | d :: ds =>
    if p d then ({ d with book := u d.book } :: (scanUpdate p u ds).1, (scanUpdate p u ds).2 + 1)
    else (d :: (scanUpdate p u ds).1, (scanUpdate p u ds).2)

/-- Modelled from the spec: update-many mutates all matching documents with
the update operators and returns the matched count. -/
def updateMany (p : Doc → Bool) (u : Book → Book) (c : Coll) : Coll × Nat :=
  let s := scanUpdate p u c.docs
  ({ c with docs := s.1 }, s.2)

/-- Engine scan for delete-one: remove the first matching document,
counting the deletions (0 or 1). -/
def removeFirst (p : Doc → Bool) : List Doc → List Doc × Nat
  | [] => ([], 0)
  | d :: ds =>
    if p d then (ds, 1)
    else (d :: (removeFirst p ds).1, (removeFirst p ds).2)

/-- Modelled from the spec: delete-one removes the first matching document
and returns the deleted count. -/
def deleteOne (p : Doc → Bool) (c : Coll) : Coll × Nat :=
  let s := removeFirst p c.docs
  ({ c with docs := s.1 }, s.2)

/-- Engine scan for delete-many: remove every matching document, counting
the deletions. -/
def scanDelete (p : Doc → Bool) : List Doc → List Doc × Nat
  | [] => ([], 0)
  | d :: ds =>
    if p d then ((scanDelete p ds).1, (scanDelete p ds).2 + 1)
    else (d :: (scanDelete p ds).1, (scanDelete p ds).2)

/-- Modelled from the spec: delete-many removes all matching documents and
returns the deleted count. -/
def deleteMany (p : Doc → Bool) (c : Coll) : Coll × Nat :=
  let s := scanDelete p c.docs
  ({ c with docs := s.1 }, s.2)

/-- Modelled from the spec: `find` with the optional cursor modifiers — the
engine evaluates the filter, orders the matches by the sort keys, skips the
first `n`, caps the remainder at `m`, and shapes each result by the
projection.  The sort key list is embedded as the total preorder `le` it
induces on documents; the projection spec as the shaping function `proj`. -/
def findWith (p : Doc → Bool) (le : Doc → Doc → Bool) (n m : Nat)
    (proj : Doc → β) (c : Coll) : Coll × List β :=
  (c, ((((c.docs.filter p).mergeSort le).drop n).take m).map proj)

/-! ### The concrete documents of the script -/

/-- The book of the script's `insertOne` (price 9.99). -/
def theCatcher : Book :=
  { title := "The Catcher in the Rye", author := "J.D. Salinger",
    genre := "Literary Fiction", publicationYear := 1951,
    price := 999 / 100, reviews := [] }

/-- First book of the script's `insertMany` batch (price 14.50). -/
def dune : Book :=
  { title := "Dune", author := "Frank Herbert", genre := "Science Fiction",
    publicationYear := 1965, price := 29 / 2,
    reviews := [{ user := "Zoe", rating := 5, comment := "Epic!" }] }

/-- Second book of the script's `insertMany` batch (price 18.75). -/
def sapiens : Book :=
  { title := "Sapiens: A Brief History of Humankind",
    author := "Yuval Noah Harari", genre := "Non-Fiction",
    publicationYear := 2011, price := 75 / 4,
    reviews := [{ user := "Frank", rating := 5, comment := "Eye-opening." }] }

/-- The review pushed onto "1984" by the script. -/
def graceReview : Review :=
  { user := "Grace", rating := 4, comment := "Still relevant today." }

/-! ### C1: insert/find round trip -/

/-- A collection that already holds a book with the round-trip title,
exhibiting that titles are not guaranteed unique. -/
def dupColl : Coll := { docs := [{ id := 0, book := theCatcher }], nextId := 1 }

/-- C1 (counterexample): on a collection state that already contains a
document with the same title, inserting the Book and finding by its title
does NOT return exactly the inserted document — the earlier document is
returned as well. -/
theorem insert_find_roundTrip_cex :
    (find (byTitle theCatcher.title) (insertOne theCatcher dupColl).1).2 ≠
      [{ id := (insertOne theCatcher dupColl).2, book := theCatcher }] := by
  decide

/-- C1 (amended): if no document of the collection already carries the
inserted book's title, then inserting it via insert-one and finding by that
title returns exactly the inserted document (with its assigned identifier)
and no other. -/
theorem insert_find_roundTrip (c : Coll) (b : Book)
    (h : ∀ d ∈ c.docs, d.book.title ≠ b.title) :
    (find (byTitle b.title) (insertOne b c).1).2 =
      [{ id := c.nextId, book := b }] := by
  have h1 : c.docs.filter (byTitle b.title) = [] := by
    rw [List.filter_eq_nil_iff]
    intro d hd
    simp only [byTitle, beq_iff_eq]
    exact h d hd
  simp [find, insertOne, List.filter_append, h1, byTitle]

/-- C1 witness: the amended round trip at the empty collection. -/
theorem insert_find_roundTrip_witness :
    (∀ d ∈ emptyColl.docs, d.book.title ≠ theCatcher.title) ∧
      (find (byTitle theCatcher.title) (insertOne theCatcher emptyColl).1).2 =
        [{ id := emptyColl.nextId, book := theCatcher }] :=
  ⟨by decide, insert_find_roundTrip emptyColl theCatcher (by decide)⟩

/-! ### Helper lemmas about the engine scans -/

theorem scanUpdate_length (p : Doc → Bool) (u : Book → Book) (l : List Doc) :
    (scanUpdate p u l).1.length = l.length := by
  induction l with
  | nil => rfl
  | cons d ds ih => by_cases h : p d <;> simp [scanUpdate, h, ih]

theorem scanUpdate_getElem (p : Doc → Bool) (u : Book → Book) :
    ∀ (l : List Doc) (i : Nat) (d : Doc), l[i]? = some d →
      (scanUpdate p u l).1[i]? =
        some (if p d then { d with book := u d.book } else d)
  | [], i, d, h => by simp at h
  | x :: xs, 0, d, h => by
    simp only [List.getElem?_cons_zero, Option.some.injEq] at h
    subst h
    by_cases hx : p x <;> simp [scanUpdate, hx]
  | x :: xs, i + 1, d, h => by
    simp only [List.getElem?_cons_succ] at h
    by_cases hx : p x <;>
      simp [scanUpdate, hx, scanUpdate_getElem p u xs i d h]

theorem updateFirst_length (p : Doc → Bool) (u : Book → Book) (l : List Doc) :
    (updateFirst p u l).1.length = l.length := by
  induction l with
  | nil => rfl
  | cons d ds ih => by_cases h : p d <;> simp [updateFirst, h, ih]

theorem updateFirst_getElem (p : Doc → Bool) (u : Book → Book) :
    ∀ (l : List Doc) (i : Nat) (d : Doc), l[i]? = some d →
      (updateFirst p u l).1[i]? =
        some (if i = l.findIdx p then { d with book := u d.book } else d)
  | [], i, d, h => by simp at h
  | x :: xs, 0, d, h => by
    simp only [List.getElem?_cons_zero, Option.some.injEq] at h
    subst h
    by_cases hx : p x <;> simp [updateFirst, hx, List.findIdx_cons]
  | x :: xs, i + 1, d, h => by
    simp only [List.getElem?_cons_succ] at h
    by_cases hx : p x
    · simp [updateFirst, hx, List.findIdx_cons, h]
    · have ih := updateFirst_getElem p u xs i d h
      have hcond : (i + 1 = xs.findIdx p + 1) = (i = xs.findIdx p) := by simp
      simp [updateFirst, hx, List.findIdx_cons, ih, hcond]

theorem scanDelete_fst (p : Doc → Bool) (l : List Doc) :
    (scanDelete p l).1 = l.filter (fun d => !(p d)) := by
  induction l with
  | nil => rfl
  | cons d ds ih => by_cases h : p d <;> simp [scanDelete, h, ih]

theorem scanDelete_snd (p : Doc → Bool) (l : List Doc) :
    (scanDelete p l).2 = l.countP p := by
  induction l with
  | nil => rfl
  | cons d ds ih => by_cases h : p d <;> simp [scanDelete, h, ih, List.countP_cons]

theorem updateFirst_of_none (p : Doc → Bool) (u : Book → Book) :
    ∀ l : List Doc, (∀ d ∈ l, ¬ p d) → updateFirst p u l = (l, 0)
  | [], _ => rfl
  | d :: ds, h => by
    have hd : ¬ p d := h d (by simp)
    have ih := updateFirst_of_none p u ds (fun x hx => h x (by simp [hx]))
    simp [updateFirst, hd, ih]

theorem scanUpdate_of_none (p : Doc → Bool) (u : Book → Book) :
    ∀ l : List Doc, (∀ d ∈ l, ¬ p d) → scanUpdate p u l = (l, 0)
  | [], _ => rfl
  | d :: ds, h => by
    have hd : ¬ p d := h d (by simp)
    have ih := scanUpdate_of_none p u ds (fun x hx => h x (by simp [hx]))
    simp [scanUpdate, hd, ih]

theorem removeFirst_of_none (p : Doc → Bool) :
    ∀ l : List Doc, (∀ d ∈ l, ¬ p d) → removeFirst p l = (l, 0)
  | [], _ => rfl
  | d :: ds, h => by
    have hd : ¬ p d := h d (by simp)
    have ih := removeFirst_of_none p ds (fun x hx => h x (by simp [hx]))
    simp [removeFirst, hd, ih]

theorem scanDelete_of_none (p : Doc → Bool) :
    ∀ l : List Doc, (∀ d ∈ l, ¬ p d) → scanDelete p l = (l, 0)
  | [], _ => rfl
  | d :: ds, h => by
    have hd : ¬ p d := h d (by simp)
    have ih := scanDelete_of_none p ds (fun x hx => h x (by simp [hx]))
    simp [scanDelete, hd, ih]

/-! ### C2: `updateMany` with `$inc` on a genre filter -/

/-- C2: update-many with the genre equality filter and `$inc` on price
keeps the collection length, increases the price of every document whose
genre matches by exactly the increment, and leaves every non-matching
document completely unchanged. -/
theorem updateMany_inc_genre (c : Coll) (g : String) (δ : ℚ) :
    (updateMany (byGenre g) (incPrice δ) c).1.docs.length = c.docs.length ∧
    ∀ (i : Nat) (d : Doc), c.docs[i]? = some d →
      (updateMany (byGenre g) (incPrice δ) c).1.docs[i]? =
        some (if d.book.genre = g
              then { d with book := { d.book with price := d.book.price + δ } }
              else d) := by
  constructor
  · simpa [updateMany] using scanUpdate_length (byGenre g) (incPrice δ) c.docs
  · intro i d h
    have hg := scanUpdate_getElem (byGenre g) (incPrice δ) c.docs i d h
    simp only [updateMany]
    rw [hg]
    by_cases hgen : d.book.genre = g <;> simp [byGenre, incPrice, hgen]

/-- C2 witness: incrementing Science-Fiction prices by 1 on the collection
obtained by the script's `insertMany` raises Dune's price by exactly 1. -/
theorem updateMany_inc_genre_witness :
    ((insertMany [dune, sapiens] emptyColl).1.docs[0]? =
        some { id := 0, book := dune }) ∧
      (updateMany (byGenre "Science Fiction") (incPrice 1)
          (insertMany [dune, sapiens] emptyColl).1).1.docs[0]? =
        some (if dune.genre = "Science Fiction"
              then { id := 0, book := { dune with price := dune.price + 1 } }
              else { id := 0, book := dune }) :=
  ⟨rfl,
   (updateMany_inc_genre (insertMany [dune, sapiens] emptyColl).1
      "Science Fiction" 1).2 0 { id := 0, book := dune } rfl⟩

/-! ### C3: frame property of `updateOne` with `$set` on price -/

/-- C3: update-one with a title filter and `$set` on price keeps the
collection length and, for each position, either leaves the document
unchanged or — exactly at the first matching position — sets its price,
preserving its identifier and every other field. -/
theorem updateOne_set_price_frame (c : Coll) (t : String) (pr : ℚ) :
    (updateOne (byTitle t) (setPrice pr) c).1.docs.length = c.docs.length ∧
    ∀ (i : Nat) (d : Doc), c.docs[i]? = some d →
      ∃ d', (updateOne (byTitle t) (setPrice pr) c).1.docs[i]? = some d' ∧
        d'.id = d.id ∧
        d'.book.title = d.book.title ∧
        d'.book.author = d.book.author ∧
        d'.book.genre = d.book.genre ∧
        d'.book.publicationYear = d.book.publicationYear ∧
        d'.book.reviews = d.book.reviews ∧
        d'.book.price =
          (if i = c.docs.findIdx (byTitle t) then pr else d.book.price) := by
  constructor
  · simpa [updateOne] using updateFirst_length (byTitle t) (setPrice pr) c.docs
  · intro i d h
    have hg := updateFirst_getElem (byTitle t) (setPrice pr) c.docs i d h
    simp only [updateOne]
    by_cases hc : i = c.docs.findIdx (byTitle t)
    · exact ⟨{ d with book := setPrice pr d.book }, by rw [hg]; simp [hc],
        by simp [setPrice, hc]⟩
    · exact ⟨d, by rw [hg]; simp [hc], by simp [hc]⟩

/-- C3 witness: the script's price update on "The Catcher in the Rye"
applied after inserting that book. -/
theorem updateOne_set_price_frame_witness :
    ((insertOne theCatcher emptyColl).1.docs[0]? =
        some { id := 0, book := theCatcher }) ∧
      ∃ d', (updateOne (byTitle "The Catcher in the Rye") (setPrice (1099 / 100))
              (insertOne theCatcher emptyColl).1).1.docs[0]? = some d' ∧
        d'.id = ({ id := 0, book := theCatcher } : Doc).id ∧
        d'.book.title = theCatcher.title ∧
        d'.book.author = theCatcher.author ∧
        d'.book.genre = theCatcher.genre ∧
        d'.book.publicationYear = theCatcher.publicationYear ∧
        d'.book.reviews = theCatcher.reviews ∧
        d'.book.price =
          (if 0 = (insertOne theCatcher emptyColl).1.docs.findIdx
                    (byTitle "The Catcher in the Rye")
           then (1099 / 100 : ℚ) else theCatcher.price) :=
  ⟨rfl,
   (updateOne_set_price_frame (insertOne theCatcher emptyColl).1
      "The Catcher in the Rye" (1099 / 100)).2 0
      { id := 0, book := theCatcher } rfl⟩

/-! ### C4: `deleteMany` on a publication-year filter -/

/-- C4: delete-many with the filter `publicationYear < 1900` removes all
and only the matching documents (the survivors are exactly the original
non-matching documents, unchanged and in order), returns the count of
removed documents, and a subsequent find with the same filter returns the
empty sequence. -/
theorem deleteMany_year_lt (c : Coll) :
    (find (byYearLt 1900) (deleteMany (byYearLt 1900) c).1).2 = [] ∧
    (deleteMany (byYearLt 1900) c).1.docs =
      c.docs.filter (fun d => !(byYearLt 1900 d)) ∧
    (deleteMany (byYearLt 1900) c).2 = c.docs.countP (byYearLt 1900) := by
  refine ⟨?_, ?_, ?_⟩
  · simp only [find, deleteMany, scanDelete_fst]
    rw [List.filter_eq_nil_iff]
    intro d hd
    have := (List.mem_filter.mp hd).2
    simp at this
    simp [this]
  · simp only [deleteMany, scanDelete_fst]
  · simp only [deleteMany, scanDelete_snd]

/-! ### C8: zero-match updates and deletes are counted no-ops -/

/-- C8: when the filter predicate matches no document of the collection,
update-one, update-many, delete-one and delete-many all succeed with a
zero count and leave the collection state unchanged. -/
theorem zeroMatch_noop (c : Coll) (p : Doc → Bool) (u : Book → Book)
    (h : c.docs.countP p = 0) :
    updateOne p u c = (c, 0) ∧ updateMany p u c = (c, 0) ∧
    deleteOne p c = (c, 0) ∧ deleteMany p c = (c, 0) := by
  have hn : ∀ d ∈ c.docs, ¬ p d := List.countP_eq_zero.mp h
  obtain ⟨ds, n⟩ := c
  simp only [updateOne, updateMany, deleteOne, deleteMany,
    updateFirst_of_none p u ds hn, scanUpdate_of_none p u ds hn,
    removeFirst_of_none p ds hn, scanDelete_of_none p ds hn]
  exact ⟨trivial, trivial, trivial, trivial⟩

/-- C8 witness: the script's `$push` update targeting title "1984" — a
title absent from the collection built by inserting the other books — is a
zero-count no-op, as are the matching deletes. -/
theorem zeroMatch_noop_witness :
    ((insertOne theCatcher emptyColl).1.docs.countP (byTitle "1984") = 0) ∧
      (updateOne (byTitle "1984") (pushReview graceReview)
          (insertOne theCatcher emptyColl).1 =
        ((insertOne theCatcher emptyColl).1, 0) ∧
      updateMany (byTitle "1984") (pushReview graceReview)
          (insertOne theCatcher emptyColl).1 =
        ((insertOne theCatcher emptyColl).1, 0) ∧
      deleteOne (byTitle "1984") (insertOne theCatcher emptyColl).1 =
        ((insertOne theCatcher emptyColl).1, 0) ∧
      deleteMany (byTitle "1984") (insertOne theCatcher emptyColl).1 =
        ((insertOne theCatcher emptyColl).1, 0)) :=
  ⟨by decide,
   zeroMatch_noop (insertOne theCatcher emptyColl).1 (byTitle "1984")
     (pushReview graceReview) (by decide)⟩

/-! ### C5: aggregation `$group` by author with `$sum: 1` -/

/-- One accumulation step of the engine's `$group` stage with
`_id: "$author"` and `bookCount: { $sum: 1 }`: bump the group carrying the
given author key, or open a new group for it. -/
def bumpAuthor (a : String) : List (String × Nat) → List (String × Nat)
  | [] => [(a, 1)]
  | (x, n) :: rest =>
    if x = a then (x, n + 1) :: rest else (x, n) :: bumpAuthor a rest

/-- Modelled from the spec: the aggregation pipeline
`[{ $group: { _id: "$author", bookCount: { $sum: 1 } } }]` — one output
group per distinct author, counting that author's documents (the order of
the groups is unspecified by the engine). -/
def groupByAuthor : List Doc → List (String × Nat)
  | [] => []
  | d :: ds => bumpAuthor d.book.author (groupByAuthor ds)

theorem bumpAuthor_map_fst (b : String) :
    ∀ g : List (String × Nat),
      (bumpAuthor b g).map Prod.fst =
        if b ∈ g.map Prod.fst then g.map Prod.fst
        else g.map Prod.fst ++ [b]
  | [] => by simp [bumpAuthor]
  | (x, n) :: rest => by
    by_cases hx : x = b
    · subst hx
      simp [bumpAuthor]
    · have ih := bumpAuthor_map_fst b rest
      have hxb : ¬ b = x := fun hh => hx hh.symm
      by_cases hb : b ∈ rest.map Prod.fst <;>
        simp [bumpAuthor, hx, hxb, hb, ih]

theorem mem_bumpAuthor_ne (b : String) (pr : String × Nat) (hne : pr.1 ≠ b) :
    ∀ g : List (String × Nat), pr ∈ bumpAuthor b g → pr ∈ g
  | [], h => by
    simp [bumpAuthor] at h
    subst h
    simp at hne
  | (x, n) :: rest, h => by
    by_cases hx : x = b
    · subst hx
      simp only [bumpAuthor, if_pos rfl] at h
      rcases List.mem_cons.mp h with h | h
      · exact absurd (by rw [h]) hne
      · exact List.mem_cons_of_mem _ h
    · simp only [bumpAuthor, if_neg hx] at h
      rcases List.mem_cons.mp h with h | h
      · exact h ▸ List.mem_cons_self _ _
      · exact List.mem_cons_of_mem _ (mem_bumpAuthor_ne b pr hne rest h)

theorem mem_bumpAuthor_eq (b : String) (pr : String × Nat) (heq : pr.1 = b) :
    ∀ g : List (String × Nat), (g.map Prod.fst).Nodup → pr ∈ bumpAuthor b g →
      (b ∉ g.map Prod.fst ∧ pr.2 = 1) ∨ ∃ n, (b, n) ∈ g ∧ pr.2 = n + 1
  | [], _, h => by
    simp [bumpAuthor] at h
    subst h
    simp
  | (x, n) :: rest, hnd, h => by
    by_cases hx : x = b
    · subst hx
      simp only [bumpAuthor, if_pos rfl] at h
      rcases List.mem_cons.mp h with h | h
      · right
        exact ⟨n, List.mem_cons_self _ _, by rw [h]⟩
      · exfalso
        have hx_notin : x ∉ rest.map Prod.fst :=
          (List.nodup_cons.mp (by simpa using hnd)).1
        exact hx_notin (heq ▸ List.mem_map_of_mem Prod.fst h)
    · simp only [bumpAuthor, if_neg hx] at h
      rcases List.mem_cons.mp h with h | h
      · subst h
        exact absurd heq hx
      · have hnd' : (rest.map Prod.fst).Nodup := (List.nodup_cons.mp (by simpa using hnd)).2
        rcases mem_bumpAuthor_eq b pr heq rest hnd' h with ⟨hnot, h1⟩ | ⟨m, hm, h2⟩
        · left
          refine ⟨?_, h1⟩
          simp only [List.map_cons, List.mem_cons]
          rintro (hh | hh)
          · exact hx hh.symm
          · exact hnot hh
        · exact Or.inr ⟨m, List.mem_cons_of_mem _ hm, h2⟩

theorem groupByAuthor_spec : ∀ ds : List Doc,
    ((groupByAuthor ds).map Prod.fst).Nodup ∧
    (∀ a, a ∈ (groupByAuthor ds).map Prod.fst ↔ ∃ d ∈ ds, d.book.author = a) ∧
    (∀ pr ∈ groupByAuthor ds,
      pr.2 = ds.countP (fun d => d.book.author == pr.1))
  | [] => by simp [groupByAuthor]
  | d :: rest => by
    obtain ⟨hnd, hmem, hcnt⟩ := groupByAuthor_spec rest
    refine ⟨?_, ?_, ?_⟩
    · rw [groupByAuthor, bumpAuthor_map_fst]
      by_cases hb : d.book.author ∈ (groupByAuthor rest).map Prod.fst
      · simpa [hb] using hnd
      · simp only [hb, if_neg, ite_false]
        simp [List.nodup_append, hnd, hb]
    · intro a
      rw [groupByAuthor, bumpAuthor_map_fst]
      by_cases hb : d.book.author ∈ (groupByAuthor rest).map Prod.fst
      · simp only [hb, ite_true]
        rw [hmem a]
        constructor
        · rintro ⟨d', hd', ha⟩
          exact ⟨d', List.mem_cons_of_mem _ hd', ha⟩
        · rintro ⟨d', hd', ha⟩
          rcases List.mem_cons.mp hd' with rfl | hd'
          · exact (hmem a).mp (ha ▸ hb)
          · exact ⟨d', hd', ha⟩
      · simp only [hb, ite_false, List.mem_append, List.mem_singleton]
        rw [hmem a]
        constructor
        · rintro (⟨d', hd', ha⟩ | rfl)
          · exact ⟨d', List.mem_cons_of_mem _ hd', ha⟩
          · exact ⟨d, List.mem_cons_self _ _, rfl⟩
        · rintro ⟨d', hd', ha⟩
          rcases List.mem_cons.mp hd' with rfl | hd'
          · exact Or.inr ha.symm
          · exact Or.inl ⟨d', hd', ha⟩
    · intro pr hpr
      rw [groupByAuthor] at hpr
      rw [List.countP_cons]
      by_cases hprb : pr.1 = d.book.author
      · rcases mem_bumpAuthor_eq d.book.author pr hprb _ hnd hpr with
          ⟨hnot, h1⟩ | ⟨m, hm, h2⟩
        · have hzero : rest.countP (fun d' => d'.book.author == pr.1) = 0 := by
            rw [List.countP_eq_zero]
            intro d' hd'
            simp only [beq_iff_eq]
            intro hh
            exact hnot ((hmem d.book.author).mpr ⟨d', hd', by rw [hh, hprb]⟩)
          rw [hzero, h1]
          simp [hprb]
        · have := hcnt (d.book.author, m) hm
          simp only at this
          rw [h2, hprb, ← this]
          simp
      · have hin : pr ∈ groupByAuthor rest := mem_bumpAuthor_ne _ pr hprb _ hpr
        rw [hcnt pr hin]
        have : (d.book.author == pr.1) = false := by
          simp only [beq_eq_false_iff_ne, ne_eq]
          exact fun hh => hprb hh.symm
        simp [this]

/-- C5: the `$group` by author aggregation yields exactly one output group
per distinct author occurring in the collection (its keys are exactly the
authors of the stored documents, without duplicates), and each group's
`bookCount` equals the number of documents whose author is that key. -/
theorem aggregate_group_author (c : Coll) :
    ((groupByAuthor c.docs).map Prod.fst).Nodup ∧
    (∀ a, a ∈ (groupByAuthor c.docs).map Prod.fst ↔
      ∃ d ∈ c.docs, d.book.author = a) ∧
    (∀ pr ∈ groupByAuthor c.docs,
      pr.2 = c.docs.countP (fun d => d.book.author == pr.1)) :=
  groupByAuthor_spec c.docs

/-! ### Sort orders and projections used by the script -/

/-- The sort key list `{ "price": -1 }` (price descending), as the total
preorder it induces on documents. -/
def priceDesc (a b : Doc) : Bool := decide (b.book.price ≤ a.book.price)

/-- The projection `{ "title": 1, "price": 1, "_id": 0 }`. -/
def projTitlePrice (d : Doc) : String × ℚ := (d.book.title, d.book.price)

/-- The aggregation projection `{ "title": 1, "author": 1, "price": 1,
"_id": 0 }`. -/
def projTitleAuthorPrice (d : Doc) : String × String × ℚ :=
  (d.book.title, d.book.author, d.book.price)

/-- Modelled from the spec: `aggregate` is read-only — it derives its
result from the document stream and leaves the collection unchanged. -/
def aggregate (f : List Doc → α) (c : Coll) : Coll × α := (c, f c.docs)

/-! ### C6: the full `find` contract -/

/-- C6: `find` with a filter predicate, sort keys, skip count, limit count
and projection is read-only, and returns the matching documents ordered by
the sort keys (ties unspecified — some sorted permutation of exactly the
matches), with the first `n` skipped, capped at `m`, shaped by the
projection; in particular the result length is `min m (matchCount - n)`. -/
theorem find_modifiers_spec (c : Coll) (p : Doc → Bool)
    (le : Doc → Doc → Bool) (n m : Nat) (proj : Doc → β)
    (htrans : ∀ a b d : Doc, le a b → le b d → le a d)
    (htotal : ∀ a b : Doc, le a b || le b a) :
    (findWith p le n m proj c).1 = c ∧
    ∃ full : List Doc,
      full.Perm (c.docs.filter p) ∧
      full.Pairwise (fun a b => le a b) ∧
      (findWith p le n m proj c).2 = ((full.drop n).take m).map proj ∧
      (findWith p le n m proj c).2.length = min m (c.docs.countP p - n) := by
  refine ⟨rfl, (c.docs.filter p).mergeSort le, List.mergeSort_perm _ le,
    List.sorted_mergeSort htrans htotal _, rfl, ?_⟩
  simp [findWith, List.length_take, List.length_drop,
    (List.mergeSort_perm (c.docs.filter p) le).length_eq,
    List.countP_eq_length_filter]

/-- C6 witness: the script's top-3-most-expensive `find` (sort by price
descending, limit 3, title/price projection) on the collection built by the
batch insert. -/
theorem find_modifiers_spec_witness :
    (∀ a b d : Doc, priceDesc a b → priceDesc b d → priceDesc a d) ∧
    (∀ a b : Doc, priceDesc a b || priceDesc b a) ∧
    ((findWith allDocs priceDesc 0 3 projTitlePrice
        (insertMany [dune, sapiens] emptyColl).1).1 =
      (insertMany [dune, sapiens] emptyColl).1 ∧
    ∃ full : List Doc,
      full.Perm ((insertMany [dune, sapiens] emptyColl).1.docs.filter allDocs) ∧
      full.Pairwise (fun a b => priceDesc a b) ∧
      (findWith allDocs priceDesc 0 3 projTitlePrice
          (insertMany [dune, sapiens] emptyColl).1).2 =
        ((full.drop 0).take 3).map projTitlePrice ∧
      (findWith allDocs priceDesc 0 3 projTitlePrice
          (insertMany [dune, sapiens] emptyColl).1).2.length =
        min 3 ((insertMany [dune, sapiens] emptyColl).1.docs.countP allDocs - 0)) := by
  have htrans : ∀ a b d : Doc, priceDesc a b → priceDesc b d → priceDesc a d := by
    intro a b d hab hbd
    simp only [priceDesc, decide_eq_true_eq] at *
    exact le_trans hbd hab
  have htotal : ∀ a b : Doc, priceDesc a b || priceDesc b a := by
    intro a b
    simp only [priceDesc, Bool.or_eq_true, decide_eq_true_eq]
    exact le_total b.book.price a.book.price
  exact ⟨htrans, htotal,
    find_modifiers_spec (insertMany [dune, sapiens] emptyColl).1 allDocs
      priceDesc 0 3 projTitlePrice htrans htotal⟩

/-! ### The grouping accumulator shared by the `$avg` pipelines -/

/-- One accumulation step of a `$group` stage keyed by a string with a
running `$sum`/`$avg` numerator and a `$sum: 1` count. -/
def bumpGroup (t : String) (q : ℚ) :
    List (String × ℚ × Nat) → List (String × ℚ × Nat)
  | [] => [(t, q, 1)]
  | (x, s, n) :: rest =>
    if x = t then (x, s + q, n + 1) :: rest else (x, s, n) :: bumpGroup t q rest

/-- Group a keyed stream of rational values, accumulating per-key sum and
count (the order of the groups is unspecified by the engine). -/
def groupSums : List (String × ℚ) → List (String × ℚ × Nat)
  | [] => []
  | (t, q) :: rest => bumpGroup t q (groupSums rest)

/-- Modelled from the spec: the `$unwind: "$reviews"` stage — one stream
element per embedded review, keyed by the parent document's title and
carrying the review's rating. -/
def unwindReviews : List Doc → List (String × ℚ)
  | [] => []
  | d :: ds =>
    d.book.reviews.map (fun r => (d.book.title, (r.rating : ℚ))) ++
      unwindReviews ds

/-- The `$group` stage of the average-rating pipeline: per title, the
average rating (`$avg`) and the review count (`$sum: 1`). -/
def ratingGroups (l : List Doc) : List (String × ℚ × Nat) :=
  (groupSums (unwindReviews l)).map
    (fun g => (g.1, g.2.1 / (g.2.2 : ℚ), g.2.2))

/-- The sort key list `{ "avgRating": -1 }` on the rating groups. -/
def avgRatingSortLe (a b : String × ℚ × Nat) : Bool := decide (b.2.1 ≤ a.2.1)

/-- `$round` to two decimal places. -/
def round2 (q : ℚ) : ℚ := (round (q * 100) : ℚ) / 100

/-- Modelled from the spec: the script's average-rating pipeline —
`$unwind` reviews, `$group` by title with `$avg` rating and `$sum: 1`,
`$match totalReviews > 0`, `$sort` by average descending, `$project` the
title, rounded average and count. -/
def avgRatingDocs (l : List Doc) : List (String × ℚ × Nat) :=
  (((ratingGroups l).filter (fun g => decide (0 < g.2.2))).mergeSort
      avgRatingSortLe).map
    (fun g => (g.1, round2 g.2.1, g.2.2))

/-- The same pipeline with the `$match totalReviews > 0` stage removed. -/
def avgRatingDocsNoMatch (l : List Doc) : List (String × ℚ × Nat) :=
  ((ratingGroups l).mergeSort avgRatingSortLe).map
    (fun g => (g.1, round2 g.2.1, g.2.2))

theorem bumpGroup_pos (t : String) (q : ℚ) :
    ∀ g : List (String × ℚ × Nat), (∀ x ∈ g, 1 ≤ x.2.2) →
      ∀ x ∈ bumpGroup t q g, 1 ≤ x.2.2
  | [], _, x, hx => by
    simp [bumpGroup] at hx
    subst hx
    simp
  | (y, s, n) :: rest, h, x, hx => by
    by_cases hy : y = t
    · subst hy
      simp only [bumpGroup, if_pos rfl] at hx
      rcases List.mem_cons.mp hx with rfl | hx
      · simp
      · exact h x (List.mem_cons_of_mem _ hx)
    · simp only [bumpGroup, if_neg hy] at hx
      rcases List.mem_cons.mp hx with rfl | hx
      · exact h _ (List.mem_cons_self _ _)
      · exact bumpGroup_pos t q rest
          (fun z hz => h z (List.mem_cons_of_mem _ hz)) x hx

theorem groupSums_pos :
    ∀ l : List (String × ℚ), ∀ x ∈ groupSums l, 1 ≤ x.2.2
  | [], x, hx => by simp [groupSums] at hx
  | (t, q) :: rest, x, hx =>
    bumpGroup_pos t q (groupSums rest) (groupSums_pos rest) x hx

/-! ### C9: the `$match totalReviews > 0` stage is a no-op -/

/-- C9: every group produced by `$unwind` on reviews followed by `$group`
with `totalReviews: { $sum: 1 }` has `totalReviews ≥ 1`, so the
average-rating pipeline with the `$match: totalReviews > 0` stage and the
pipeline without it produce equal results on every collection state. -/
theorem avgRating_match_noop (c : Coll) :
    (∀ g ∈ ratingGroups c.docs, 1 ≤ g.2.2) ∧
    (aggregate avgRatingDocs c).2 = (aggregate avgRatingDocsNoMatch c).2 := by
  have hpos : ∀ g ∈ ratingGroups c.docs, 1 ≤ g.2.2 := by
    intro g hg
    simp only [ratingGroups, List.mem_map] at hg
    obtain ⟨g0, hg0, rfl⟩ := hg
    exact groupSums_pos _ g0 hg0
  refine ⟨hpos, ?_⟩
  have hfilter : (ratingGroups c.docs).filter (fun g => decide (0 < g.2.2)) =
      ratingGroups c.docs := by
    rw [List.filter_eq_self]
    intro g hg
    simpa using lt_of_lt_of_le Nat.zero_lt_one (hpos g hg)
  simp only [aggregate, avgRatingDocs, avgRatingDocsNoMatch, hfilter]

/-! ### C10: find and aggregation agree on the top-3 most expensive -/

/-- The script's `find` at lines 95–97: projection `{title, price, _id:0}`,
sort by price descending, limit 3. -/
def topExpensiveFind (c : Coll) : List (String × ℚ) :=
  (findWith allDocs priceDesc 0 3 projTitlePrice c).2

/-- The script's aggregation at lines 187–202:
`[$sort price desc, $limit 3, $project title/author/price]`. -/
def top3ExpensiveDocs (l : List Doc) : List (String × String × ℚ) :=
  ((l.mergeSort priceDesc).take 3).map projTitleAuthorPrice

/-- The top-3 aggregation as a read-only operation on the collection. -/
def topExpensiveAgg (c : Coll) : List (String × String × ℚ) :=
  (aggregate top3ExpensiveDocs c).2

/-- C10: on every collection state, the top-3-most-expensive `find` and the
top-3-most-expensive aggregation pipeline return the same documents in the
same order once both results are restricted to the title and price fields
(both pipelines order ties by the same stable sort on the same key). -/
theorem find_agg_top3_agree (c : Coll) :
    topExpensiveFind c = (topExpensiveAgg c).map (fun x => (x.1, x.2.2)) := by
  simp only [topExpensiveFind, topExpensiveAgg, aggregate, top3ExpensiveDocs,
    findWith, List.map_map]
  have hfilter : c.docs.filter allDocs = c.docs := by
    rw [List.filter_eq_self]
    intro d _
    rfl
  rw [hfilter, List.drop_zero]
  rfl

/-! ### The remaining operations of the script -/

/-- The sort key list `{ "publicationYear": 1, "title": 1 }` (ascending on
year, then ascending on title). -/
def yearTitleAsc (a b : Doc) : Bool :=
  decide (a.book.publicationYear < b.book.publicationYear) ||
    (decide (a.book.publicationYear = b.book.publicationYear) &&
      decide (a.book.title ≤ b.book.title))

/-- Modelled from the spec: the `$text: { $search: q }` filter — word-level
full-text match of any search token against the text-indexed `title` and
`author` fields. -/
def byTextSearch (q : String) (d : Doc) : Bool :=
  (q.splitOn " ").any fun t =>
    (d.book.title.splitOn " ").contains t ||
      (d.book.author.splitOn " ").contains t

/-- The script's `$group` by genre with `averagePrice: { $avg: "$price" }`. -/
def genrePriceAvgDocs (l : List Doc) : List (String × ℚ) :=
  (groupSums (l.map (fun d => (d.book.genre, d.book.price)))).map
    (fun g => (g.1, g.2.1 / (g.2.2 : ℚ)))

/-- The script's `$project title / numberOfReviews ($size: "$reviews")`
followed by `$sort numberOfReviews descending`. -/
def reviewCountDocs (l : List Doc) : List (String × Nat) :=
  (l.map (fun d => (d.book.title, d.book.reviews.length))).mergeSort
    (fun a b => decide (b.2 ≤ a.2))

/-! ### C7: the operations of the script and the append-only invariant -/

/-- The operations issued by the script `src/queries.js`, in order.  Index
commands are included; per the spec, indexes affect only query performance
and text-search capability, never document content. -/
inductive ScriptOp where
  | insertCatcher
  | insertBatch
  | findAll
  | findByOrwell
  | findProjection
  | setCatcherPrice
  | incSciFi
  | pushGrace
  | deleteCatcher
  | deletePre1900
  | findRecentCheap
  | findOrwellOrLee
  | findClassicTopRated
  | findSortedYearTitle
  | findTop3Expensive
  | findPage2
  | findAliceReviews
  | countBooks
  | groupAuthors
  | avgPricePerGenre
  | reviewCounts
  | avgRatings
  | top3Expensive
  | createYearIdx
  | createGenrePriceIdx
  | createTextIdx
  | findTextSearch
  | listIndexes
  | dropYearIdx
  | dropAllIdx
deriving DecidableEq

/-- The effect of each script operation on the collection state.  Reads
(`find`, `aggregate`) are read-only; index commands touch only index
metadata, which is not part of the document state. -/
def applyOp : ScriptOp → Coll → Coll
  | .insertCatcher, c => (insertOne theCatcher c).1
  | .insertBatch, c => (insertMany [dune, sapiens] c).1
  | .findAll, c => (find allDocs c).1
  | .findByOrwell, c => (find (byAuthor "George Orwell") c).1
  | .findProjection, c =>
      (findWith allDocs (fun _ _ => true) 0 c.docs.length
        (fun d => (d.book.title, d.book.author)) c).1
  | .setCatcherPrice, c =>
      (updateOne (byTitle "The Catcher in the Rye") (setPrice (1099 / 100)) c).1
  | .incSciFi, c => (updateMany (byGenre "Science Fiction") (incPrice 1) c).1
  | .pushGrace, c => (updateOne (byTitle "1984") (pushReview graceReview) c).1
  | .deleteCatcher, c => (deleteOne (byTitle "The Catcher in the Rye") c).1
  | .deletePre1900, c => (deleteMany (byYearLt 1900) c).1
  | .findRecentCheap, c => (find (byYearGtPriceLt 1950 15) c).1
  | .findOrwellOrLee, c => (find (byAuthorOr "George Orwell" "Harper Lee") c).1
  | .findClassicTopRated, c => (find (byGenreAndRating "Classic" 5) c).1
  | .findSortedYearTitle, c =>
      (findWith allDocs yearTitleAsc 0 c.docs.length (fun d => d) c).1
  | .findTop3Expensive, c => (findWith allDocs priceDesc 0 3 projTitlePrice c).1
  | .findPage2, c => (findWith allDocs (fun _ _ => true) 2 2 (fun d => d) c).1
  | .findAliceReviews, c => (find (byReviewUser "Alice") c).1
  | .countBooks, c => (aggregate List.length c).1
  | .groupAuthors, c => (aggregate groupByAuthor c).1
  | .avgPricePerGenre, c => (aggregate genrePriceAvgDocs c).1
  | .reviewCounts, c => (aggregate reviewCountDocs c).1
  | .avgRatings, c => (aggregate avgRatingDocs c).1
  | .top3Expensive, c => (aggregate top3ExpensiveDocs c).1
  | .createYearIdx, c => c
  | .createGenrePriceIdx, c => c
  | .createTextIdx, c => c
  | .findTextSearch, c => (find (byTextSearch "classic timeless") c).1
  | .listIndexes, c => c
  | .dropYearIdx, c => c
  | .dropAllIdx, c => c

/-- Well-formedness of a collection state, holding of every state reachable
from the empty collection: identifiers are below the allocation counter and
pairwise distinct. -/
def WF (c : Coll) : Prop :=
  (∀ d ∈ c.docs, d.id < c.nextId) ∧ (c.docs.map Doc.id).Nodup

instance (c : Coll) : Decidable (WF c) := by
  unfold WF
  infer_instance

/-- Between two states, every surviving document (same identifier) has its
old reviews sequence as an initial segment of the new one: reviews are
mutated only by appending. -/
def AppendOnlyTo (c c' : Coll) : Prop :=
  ∀ d ∈ c.docs, ∀ d' ∈ c'.docs, d'.id = d.id →
    ∃ t, d'.book.reviews = d.book.reviews ++ t

theorem eq_of_mem_id :
    ∀ l : List Doc, (l.map Doc.id).Nodup →
      ∀ d ∈ l, ∀ d' ∈ l, d'.id = d.id → d' = d := by
  intro l
  induction l with
  | nil =>
    intro _ d hd
    simp at hd
  | cons x xs ih =>
    intro hnd d hd d' hd' hid
    obtain ⟨hx_notin, hnd'⟩ :
        (∀ y ∈ xs, ¬ y.id = x.id) ∧ (xs.map Doc.id).Nodup := by
      simpa using hnd
    rw [List.mem_cons] at hd hd'
    rcases hd with rfl | hd
    · rcases hd' with rfl | hd'
      · rfl
      · exact absurd hid (hx_notin d' hd')
    · rcases hd' with rfl | hd'
      · exact absurd hid.symm (hx_notin d hd)
      · exact ih hnd' d hd d' hd' hid

theorem appendOnly_self (c : Coll) (hwf : WF c) : AppendOnlyTo c c ∧ WF c := by
  refine ⟨?_, hwf⟩
  intro d hd d' hd' hid
  rw [eq_of_mem_id c.docs hwf.2 d hd d' hd' hid]
  exact ⟨[], by simp⟩

theorem appendOnly_insertOne (b : Book) (c : Coll) (hwf : WF c) :
    AppendOnlyTo c (insertOne b c).1 ∧ WF (insertOne b c).1 := by
  obtain ⟨hbound, hnd⟩ := hwf
  refine ⟨?_, ?_, ?_⟩
  · intro d hd d' hd' hid
    simp only [insertOne, List.mem_append, List.mem_singleton] at hd'
    rcases hd' with hd' | rfl
    · rw [eq_of_mem_id c.docs hnd d hd d' hd' hid]
      exact ⟨[], by simp⟩
    · exact absurd (hid ▸ hbound d hd) (lt_irrefl _)
  · intro d hd
    simp only [insertOne, List.mem_append, List.mem_singleton] at hd
    rcases hd with hd | rfl
    · exact Nat.lt_succ_of_lt (hbound d hd)
    · exact Nat.lt_succ_self _
  · simp only [insertOne, List.map_append, List.map_cons, List.map_nil]
    rw [List.nodup_append]
    refine ⟨hnd, List.nodup_singleton _, ?_⟩
    intro a ha hb
    simp only [List.mem_singleton] at hb
    subst hb
    obtain ⟨d, hd, hda⟩ := List.mem_map.mp ha
    exact absurd (hda ▸ hbound d hd) (lt_irrefl _)

theorem appendOnly_insertMany :
    ∀ (bs : List Book) (c : Coll), WF c →
      AppendOnlyTo c (insertMany bs c).1 ∧ WF (insertMany bs c).1
  | [], c, hwf => appendOnly_self c hwf
  | b :: rest, c, hwf => by
    have h1 := appendOnly_insertOne b c hwf
    have ih := appendOnly_insertMany rest (insertOne b c).1 h1.2
    refine ⟨?_, ih.2⟩
    intro d hd d' hd' hid
    exact ih.1 d (by simp [insertOne, List.mem_append_left, hd]) d' hd' hid

theorem mem_updateFirst (p : Doc → Bool) (u : Book → Book) :
    ∀ l : List Doc, ∀ d' ∈ (updateFirst p u l).1,
      d' ∈ l ∨ ∃ d0 ∈ l, d' = { d0 with book := u d0.book }
  | [], d', h => by simp [updateFirst] at h
  | x :: xs, d', h => by
    by_cases hx : p x
    · simp only [updateFirst, if_pos hx] at h
      rcases List.mem_cons.mp h with rfl | h
      · exact Or.inr ⟨x, List.mem_cons_self _ _, rfl⟩
      · exact Or.inl (List.mem_cons_of_mem _ h)
    · simp only [updateFirst, if_neg hx] at h
      rcases List.mem_cons.mp h with rfl | h
      · exact Or.inl (List.mem_cons_self _ _)
      · rcases mem_updateFirst p u xs d' h with h | ⟨d0, hd0, rfl⟩
        · exact Or.inl (List.mem_cons_of_mem _ h)
        · exact Or.inr ⟨d0, List.mem_cons_of_mem _ hd0, rfl⟩

theorem mem_scanUpdate (p : Doc → Bool) (u : Book → Book) :
    ∀ l : List Doc, ∀ d' ∈ (scanUpdate p u l).1,
      d' ∈ l ∨ ∃ d0 ∈ l, d' = { d0 with book := u d0.book }
  | [], d', h => by simp [scanUpdate] at h
  | x :: xs, d', h => by
    by_cases hx : p x
    · simp only [scanUpdate, if_pos hx] at h
      rcases List.mem_cons.mp h with rfl | h
      · exact Or.inr ⟨x, List.mem_cons_self _ _, rfl⟩
      · rcases mem_scanUpdate p u xs d' h with h | ⟨d0, hd0, rfl⟩
        · exact Or.inl (List.mem_cons_of_mem _ h)
        · exact Or.inr ⟨d0, List.mem_cons_of_mem _ hd0, rfl⟩
    · simp only [scanUpdate, if_neg hx] at h
      rcases List.mem_cons.mp h with rfl | h
      · exact Or.inl (List.mem_cons_self _ _)
      · rcases mem_scanUpdate p u xs d' h with h | ⟨d0, hd0, rfl⟩
        · exact Or.inl (List.mem_cons_of_mem _ h)
        · exact Or.inr ⟨d0, List.mem_cons_of_mem _ hd0, rfl⟩

theorem updateFirst_map_id (p : Doc → Bool) (u : Book → Book) :
    ∀ l : List Doc, ((updateFirst p u l).1).map Doc.id = l.map Doc.id
  | [] => rfl
  | x :: xs => by
    by_cases hx : p x <;>
      simp [updateFirst, hx, updateFirst_map_id p u xs]

theorem scanUpdate_map_id (p : Doc → Bool) (u : Book → Book) :
    ∀ l : List Doc, ((scanUpdate p u l).1).map Doc.id = l.map Doc.id
  | [] => rfl
  | x :: xs => by
    by_cases hx : p x <;>
      simp [scanUpdate, hx, scanUpdate_map_id p u xs]

theorem mem_removeFirst (p : Doc → Bool) :
    ∀ l : List Doc, ∀ d' ∈ (removeFirst p l).1, d' ∈ l
  | [], d', h => by simp [removeFirst] at h
  | x :: xs, d', h => by
    by_cases hx : p x
    · simp only [removeFirst, if_pos hx] at h
      exact List.mem_cons_of_mem _ h
    · simp only [removeFirst, if_neg hx] at h
      rcases List.mem_cons.mp h with rfl | h
      · exact List.mem_cons_self _ _
      · exact List.mem_cons_of_mem _ (mem_removeFirst p xs d' h)

theorem removeFirst_sublist (p : Doc → Bool) :
    ∀ l : List Doc, ((removeFirst p l).1).Sublist l
  | [] => List.Sublist.refl _
  | x :: xs => by
    by_cases hx : p x
    · simp only [removeFirst, if_pos hx]
      exact List.Sublist.cons x (List.Sublist.refl xs)
    · simp only [removeFirst, if_neg hx]
      exact List.Sublist.cons₂ x (removeFirst_sublist p xs)

/-- Generic append-only step for update operations whose update operator
only appends to `reviews` (or leaves it unchanged), instantiated below at
`$set price`, `$inc price` and `$push reviews`. -/
theorem appendOnly_updateDocs (u : Book → Book) (c : Coll) (hwf : WF c)
    (docs' : List Doc)
    (hmem : ∀ d' ∈ docs', d' ∈ c.docs ∨
      ∃ d0 ∈ c.docs, d' = { d0 with book := u d0.book })
    (hmap : docs'.map Doc.id = c.docs.map Doc.id)
    (hu : ∀ b : Book, ∃ t, (u b).reviews = b.reviews ++ t) :
    AppendOnlyTo c { c with docs := docs' } ∧ WF { c with docs := docs' } := by
  obtain ⟨hbound, hnd⟩ := hwf
  refine ⟨?_, ?_, ?_⟩
  · intro d hd d' hd' hid
    rcases hmem d' hd' with h | ⟨d0, hd0, rfl⟩
    · rw [eq_of_mem_id c.docs hnd d hd d' h hid]
      exact ⟨[], by simp⟩
    · have : d0 = d := eq_of_mem_id c.docs hnd d hd d0 hd0 hid
      subst this
      exact hu d0.book
  · intro d hd
    rcases hmem d hd with h | ⟨d0, hd0, rfl⟩
    · exact hbound d h
    · exact hbound d0 hd0
  · simpa [hmap] using hnd

theorem appendOnly_deleteDocs (c : Coll) (hwf : WF c) (docs' : List Doc)
    (hmem : ∀ d' ∈ docs', d' ∈ c.docs)
    (hsub : docs'.Sublist c.docs) :
    AppendOnlyTo c { c with docs := docs' } ∧ WF { c with docs := docs' } := by
  obtain ⟨hbound, hnd⟩ := hwf
  refine ⟨?_, ?_, ?_⟩
  · intro d hd d' hd' hid
    rw [eq_of_mem_id c.docs hnd d hd d' (hmem d' hd') hid]
    exact ⟨[], by simp⟩
  · intro d hd
    exact hbound d (hmem d hd)
  · exact List.Nodup.sublist (hsub.map Doc.id) hnd

/-- C7: append-only mutation of reviews.  `WF` holds of every collection
state reachable by the script's operations (it holds of the empty
collection and, by the second conjunct, is preserved by every operation);
on any such state, every operation of the script leaves each surviving
document's reviews sequence extended only by appending — no operation
edits a review in place or removes a single review. -/
theorem reviews_append_only (op : ScriptOp) (c : Coll) (hwf : WF c) :
    AppendOnlyTo c (applyOp op c) ∧ WF (applyOp op c) := by
  cases op
  case insertCatcher => exact appendOnly_insertOne theCatcher c hwf
  case insertBatch => exact appendOnly_insertMany [dune, sapiens] c hwf
  case setCatcherPrice =>
    exact appendOnly_updateDocs (setPrice (1099 / 100)) c hwf _
      (mem_updateFirst _ _ c.docs) (updateFirst_map_id _ _ c.docs)
      (fun b => ⟨[], by simp [setPrice]⟩)
  case incSciFi =>
    exact appendOnly_updateDocs (incPrice 1) c hwf _
      (mem_scanUpdate _ _ c.docs) (scanUpdate_map_id _ _ c.docs)
      (fun b => ⟨[], by simp [incPrice]⟩)
  case pushGrace =>
    exact appendOnly_updateDocs (pushReview graceReview) c hwf _
      (mem_updateFirst _ _ c.docs) (updateFirst_map_id _ _ c.docs)
      (fun b => ⟨[graceReview], rfl⟩)
  case deleteCatcher =>
    exact appendOnly_deleteDocs c hwf _
      (mem_removeFirst _ c.docs) (removeFirst_sublist _ c.docs)
  case deletePre1900 =>
    refine appendOnly_deleteDocs c hwf _ ?_ ?_
    · intro d' hd'
      rw [scanDelete_fst] at hd'
      exact (List.mem_filter.mp hd').1
    · rw [scanDelete_fst]
      exact List.filter_sublist _
  all_goals exact appendOnly_self c hwf

/-- C7 witness: the script's `$push` of Grace's review, applied to a
well-formed one-document collection. -/
theorem reviews_append_only_witness :
    WF (insertOne theCatcher emptyColl).1 ∧
      (AppendOnlyTo (insertOne theCatcher emptyColl).1
        (applyOp ScriptOp.pushGrace (insertOne theCatcher emptyColl).1) ∧
      WF (applyOp ScriptOp.pushGrace (insertOne theCatcher emptyColl).1)) :=
  ⟨by decide,
   reviews_append_only ScriptOp.pushGrace (insertOne theCatcher emptyColl).1
     (by decide)⟩

end BookQueries
